import Mathlib

/-!
Verification of the mirror-discovery pipeline in `update_sites.py`
(repository InternetQualityMonitor).

The script's pure parts (pattern matching with `re.findall` / `re.search`,
deduplication, descriptor construction, JSON serialization) are embedded
directly; the two network calls (`requests.get` for index pages and
`requests.head` for liveness probes) are modelled as oracle functions
supplied through an `Env` record, each returning either a result or an
exception payload.
-/

namespace UpdateSites

/-- Python strings are modelled as lists of characters. -/
abbrev Str := List Char

/-- `leadMatch l s` is true when the literal `l` is an initial segment of `s`. -/
def leadMatch : Str → Str → Bool
  | [], _ => true
  | _ :: _, [] => false
  | a :: as, b :: bs => a == b && leadMatch as bs

/-- Group-capture bookkeeping: Python keeps the first capturing group for
`re.findall`; `pickCap` keeps the leftmost capture when combining. -/
def pickCap : Option Str → Option Str → Option Str
  | some g, _ => some g
  | none, g => g

/-- Abstract syntax of the regular expressions appearing in `update_sites.py`:
literal runs of escaped/plain characters, a character class under `+`,
an alternation of literal words, concatenation, and a capturing group. -/
inductive Regex where
  | lit : Str → Regex
  | clsPlus : (Char → Bool) → Regex
  | alts : List Str → Regex
  | seq : Regex → Regex → Regex
  | grp : Regex → Regex

/-- `r.candidates s` lists the ways `r` can match a prefix of `s`, as triples
`(consumed, rest, capture)`, in the preference order of Python's backtracking
matcher: a greedy `+` tries longer runs first, an alternation tries its
branches left to right, and earlier atoms of a concatenation backtrack last. -/
def Regex.candidates : Regex → Str → List (Str × Str × Option Str)
  | .lit l, s => if leadMatch l s then [(l, s.drop l.length, none)] else []
  | .clsPlus p, s =>
      let run := s.takeWhile p
      (List.range run.length).map (fun i =>
        (s.take (run.length - i), s.drop (run.length - i), none))
  | .alts ls, s => ls.filterMap (fun l =>
      if leadMatch l s then some (l, s.drop l.length, none) else none)
  | .seq a b, s =>
      (a.candidates s).flatMap (fun x =>
        (b.candidates x.2.1).map (fun y => (x.1 ++ y.1, y.2.1, pickCap x.2.2 y.2.2)))
  | .grp r, s => (r.candidates s).map (fun x => (x.1, x.2.1, some x.1))

/-- The match Python's engine reports when anchored at the start of `s`:
the first candidate in backtracking preference order. -/
def Regex.matchAt (r : Regex) (s : Str) : Option (Str × Str × Option Str) :=
  (r.candidates s).head?

/-- `re.search`: try each start position from the left, return the first match. -/
def Regex.searchAux (r : Regex) : Str → Option (Str × Str × Option Str)
  | [] => r.matchAt []
  | c :: rest =>
      match r.matchAt (c :: rest) with
      | some m => some m
      | none => Regex.searchAux r rest

/-- What `re.findall` emits for one match: the first capturing group when the
pattern has one, the whole match otherwise. -/
def emitOf (c : Str) (g : Option Str) : Str := g.getD c

/-- Scanning loop of `re.findall`: repeatedly match at the current position,
emit, and continue at the end of the match (one character further for an
empty match); on failure slide one character to the right. -/
def Regex.findallAux (r : Regex) : Nat → Str → List Str
  | 0, _ => []
  | _ + 1, [] =>
      match r.matchAt [] with
      | some x => [emitOf x.1 x.2.2]
      | none => []
  | fuel + 1, c :: rest =>
      match r.matchAt (c :: rest) with
      | some x => emitOf x.1 x.2.2 :: r.findallAux fuel (if x.1.isEmpty then rest else x.2.1)
      | none => r.findallAux fuel rest

/-- `re.findall(pattern, s)`: all non-overlapping matches, left to right. -/
def Regex.findall (r : Regex) (s : Str) : List Str :=
  r.findallAux (s.length + 1) s

/-- `r.accepts s`: `s` as a whole matches `r` (some candidate consumes all of `s`). -/
def Regex.accepts (r : Regex) (s : Str) : Bool :=
  (r.candidates s).any (fun x => x.2.1.isEmpty)

/-- Whether a pattern contains a capturing group (decides what `re.findall` emits). -/
def Regex.hasGrp : Regex → Bool
  | .lit _ => false
  | .clsPlus _ => false
  | .alts _ => false
  | .seq a b => a.hasGrp || b.hasGrp
  | .grp _ => true

/-- The class `[0-9]`. -/
def digitCls (c : Char) : Bool := '0' ≤ c && c ≤ '9'

/-- The class `[0-9A-Za-z]`. -/
def alnumCls (c : Char) : Bool :=
  ('0' ≤ c && c ≤ '9') || (('A' ≤ c && c ≤ 'Z') || ('a' ≤ c && c ≤ 'z'))

/-- The class `[0-9A-Za-z\-]` used by the Linode patterns. -/
def alnumDashCls (c : Char) : Bool := alnumCls c || c == '-'

/-- The class `[0-9a-zA-Z]` used by the Azure pattern (same set as `alnumCls`). -/
def azureCls (c : Char) : Bool :=
  ('0' ≤ c && c ≤ '9') || (('a' ≤ c && c ≤ 'z') || ('A' ≤ c && c ≤ 'Z'))

/-- The class `[0-9A-ZaZ]` of the AWS S3 pattern, item by item as written:
the range `0-9`, the range `A-Z`, the character `a`, the character `Z`. -/
def awsCls (c : Char) : Bool :=
  ('0' ≤ c && c ≤ '9') || (('A' ≤ c && c ≤ 'Z') || ((c == 'a') || (c == 'Z')))

/-- A pattern of the shape `pre[cls]+suf` (no capturing group). -/
def mkPat (pre : Str) (p : Char → Bool) (suf : Str) : Regex :=
  .seq (.lit pre) (.seq (.clsPlus p) (.lit suf))

/-- A pattern of the shape `pre[cls]+mid(w1|w2|...)` — the trailing alternation
is a capturing group, exactly as in the source patterns `...\.(dat|zip)`. -/
def mkPatG (pre : Str) (p : Char → Bool) (mid : Str) (ls : List Str) : Regex :=
  .seq (.lit pre) (.seq (.clsPlus p) (.seq (.lit mid) (.grp (.alts ls))))

/-- A provider record of the static `mirror_pages` table: display name,
country code, index-page URL, and the match pattern for candidate file URLs. -/
structure Mirror where
  name : Str
  country : Str
  url : Str
  pattern : Regex

/-- `mirror_pages[0]`: Hetzner Germany. -/
def hetznerMirror : Mirror :=
  ⟨"Hetzner Germany".toList, "DE".toList, "https://speed.hetzner.de/".toList,
    mkPat "https://speed.hetzner.de/".toList alnumCls ".bin".toList⟩

/-- `mirror_pages[1]`: ThinkBroadband UK. -/
def thinkbroadbandMirror : Mirror :=
  ⟨"ThinkBroadband UK".toList, "UK".toList, "http://ipv4.download.thinkbroadband.com/".toList,
    mkPat "http://ipv4.download.thinkbroadband.com/".toList alnumCls ".zip".toList⟩

/-- `mirror_pages[2]`: OVH France — its pattern ends in the capturing group `(dat|zip)`. -/
def ovhMirror : Mirror :=
  ⟨"OVH France".toList, "FR".toList, "http://proof.ovh.net/files/".toList,
    mkPatG "http://proof.ovh.net/files/".toList alnumCls ".".toList
      ["dat".toList, "zip".toList]⟩

/-- `mirror_pages[3]`: Tele2 Sweden. -/
def tele2Mirror : Mirror :=
  ⟨"Tele2 Sweden".toList, "SE".toList, "http://speedtest.tele2.net/".toList,
    mkPat "http://speedtest.tele2.net/".toList alnumCls ".zip".toList⟩

/-- `mirror_pages[4]`: Leaseweb NL — capturing group `(bin|zip)`. -/
def leasewebNlMirror : Mirror :=
  ⟨"Leaseweb NL".toList, "NL".toList, "https://mirror.nl.leaseweb.net/speedtest/".toList,
    mkPatG "https://mirror.nl.leaseweb.net/speedtest/".toList alnumCls ".".toList
      ["bin".toList, "zip".toList]⟩

/-- `mirror_pages[5]`: Leaseweb DE — capturing group `(bin|zip)`. -/
def leasewebDeMirror : Mirror :=
  ⟨"Leaseweb DE".toList, "DE".toList, "https://mirror.de.leaseweb.net/speedtest/".toList,
    mkPatG "https://mirror.de.leaseweb.net/speedtest/".toList alnumCls ".".toList
      ["bin".toList, "zip".toList]⟩

/-- `mirror_pages[6]`: Leaseweb US — capturing group `(bin|zip)`. -/
def leasewebUsMirror : Mirror :=
  ⟨"Leaseweb US".toList, "US".toList, "https://mirror.us.leaseweb.net/speedtest/".toList,
    mkPatG "https://mirror.us.leaseweb.net/speedtest/".toList alnumCls ".".toList
      ["bin".toList, "zip".toList]⟩

/-- `mirror_pages[7]`: Leaseweb SG — capturing group `(bin|zip)`. -/
def leasewebSgMirror : Mirror :=
  ⟨"Leaseweb SG".toList, "SG".toList, "https://mirror.sg.leaseweb.net/speedtest/".toList,
    mkPatG "https://mirror.sg.leaseweb.net/speedtest/".toList alnumCls ".".toList
      ["bin".toList, "zip".toList]⟩

/-- `mirror_pages[8]`: Linode US. -/
def linodeUsMirror : Mirror :=
  ⟨"Linode US".toList, "US".toList, "https://speedtest.newark.linode.com/".toList,
    mkPat "https://speedtest.newark.linode.com/".toList alnumDashCls ".bin".toList⟩

/-- `mirror_pages[9]`: Linode DE. -/
def linodeDeMirror : Mirror :=
  ⟨"Linode DE".toList, "DE".toList, "https://speedtest.frankfurt.linode.com/".toList,
    mkPat "https://speedtest.frankfurt.linode.com/".toList alnumDashCls ".bin".toList⟩

/-- `mirror_pages[10]`: Linode UK. -/
def linodeUkMirror : Mirror :=
  ⟨"Linode UK".toList, "UK".toList, "https://speedtest.london.linode.com/".toList,
    mkPat "https://speedtest.london.linode.com/".toList alnumDashCls ".bin".toList⟩

/-- `mirror_pages[11]`: Linode JP. -/
def linodeJpMirror : Mirror :=
  ⟨"Linode JP".toList, "JP".toList, "https://speedtest.tokyo2.linode.com/".toList,
    mkPat "https://speedtest.tokyo2.linode.com/".toList alnumDashCls ".bin".toList⟩

/-- `mirror_pages[12]`: Linode SG. -/
def linodeSgMirror : Mirror :=
  ⟨"Linode SG".toList, "SG".toList, "https://speedtest.singapore.linode.com/".toList,
    mkPat "https://speedtest.singapore.linode.com/".toList alnumDashCls ".bin".toList⟩

/-- `mirror_pages[13]`: Azure Global. -/
def azureMirror : Mirror :=
  ⟨"Azure Global".toList, "GLOBAL".toList, "https://www.azurespeed.com/Azure/Download".toList,
    mkPat "https://azurespeedtestfiles.blob.core.windows.net/blobtestfiles/test".toList
      azureCls ".db".toList⟩

/-- `mirror_pages[14]`: AWS S3 US East — its class is the (as-written) `[0-9A-ZaZ]`. -/
def awsMirror : Mirror :=
  ⟨"AWS S3 US East".toList, "US".toList, "https://speedtest.s3.amazonaws.com/".toList,
    mkPat "https://speedtest.s3.amazonaws.com/".toList awsCls ".bin".toList⟩

/-- `mirror_pages[15]`: DigitalOcean NYC1. -/
def digitaloceanMirror : Mirror :=
  ⟨"DigitalOcean NYC1".toList, "US".toList,
    "https://s3.amazonaws.com/speedtest-nyc1.digitalocean.com/".toList,
    mkPat "https://s3.amazonaws.com/speedtest-nyc1.digitalocean.com/".toList
      alnumCls ".test".toList⟩

/-- The static provider table `mirror_pages` of `update_sites.py`. -/
def mirror_pages : List Mirror :=
  [hetznerMirror, thinkbroadbandMirror, ovhMirror, tele2Mirror,
   leasewebNlMirror, leasewebDeMirror, leasewebUsMirror, leasewebSgMirror,
   linodeUsMirror, linodeDeMirror, linodeUkMirror, linodeJpMirror, linodeSgMirror,
   azureMirror, awsMirror, digitaloceanMirror]

/-- `is_alive(url)`: `requests.head(url, timeout=10)` is modelled by the oracle
`head`, returning the response status code or the text of a raised exception;
the function returns `status_code == 200` on a response, `False` on an exception. -/
def is_alive (head : Str → Except Str Nat) (url : Str) : Bool :=
  match head url with
  | .ok code => code == 200
  | .error _ => false

/-- The pattern `([0-9]+)(MB|GB|Mb|Gb)` of `file_size_from_url`
(both subpatterns are capturing groups in the source). -/
def sizeRe : Regex :=
  .seq (.grp (.clsPlus digitCls))
    (.grp (.alts ["MB".toList, "GB".toList, "Mb".toList, "Gb".toList]))

/-- `file_size_from_url(url)`: `re.search` the size pattern over the whole URL;
return `m.group(0)` (the full matched text) if found, else the literal `"file"`. -/
def file_size_from_url (url : Str) : Str :=
  match sizeRe.searchAux url with
  | some m => m.1
  | none => "file".toList

/-- The record appended to `sites`: exactly three string fields. -/
structure Descriptor where
  name : Str
  url : Str
  country : Str
deriving DecidableEq, Repr

/-- The dict literal built in the loop body of `main`. -/
def buildDescriptor (m : Mirror) (url : Str) : Descriptor :=
  ⟨m.name ++ " ".toList ++ file_size_from_url url, url, m.country⟩

/-- One provider's contribution to `sites`: `set(re.findall(pattern, resp.text))`,
then a descriptor for each member that passes `is_alive`.  (Python's set is
modelled as a duplicate-free list; iteration order of a set is unspecified.) -/
def providerSites (head : Str → Except Str Nat) (text : Str) (m : Mirror) :
    List Descriptor :=
  ((m.pattern.findall text).dedup).filterMap (fun url =>
    if is_alive head url then some (buildDescriptor m url) else none)

/-- The two network oracles of a run: `get` is `requests.get` on an index-page
URL (page text or exception text), `head` is `requests.head` on a candidate. -/
structure Env where
  get : Str → Except Str Str
  head : Str → Except Str Nat

/-- The body of the `for mirror in mirror_pages` loop, per provider: on a fetch
success the appended descriptors (and no output); on a fetch exception no
descriptors and the `Failed to fetch ...` line printed to standard output. -/
def providerBlock (env : Env) (m : Mirror) : List Descriptor × List Str :=
  match env.get m.url with
  | .ok text => (providerSites env.head text m, [])
  | .error e => ([], ["Failed to fetch ".toList ++ m.url ++ ": ".toList ++ e])

/-- One iteration of the provider loop acting on the accumulated
`(sites, stdout lines)` state. -/
def runStep (env : Env) (acc : List Descriptor × List Str) (m : Mirror) :
    List Descriptor × List Str :=
  ((acc.1 ++ (providerBlock env m).1), (acc.2 ++ (providerBlock env m).2))

/-- The accumulated state after the first `k` providers have been processed. -/
def prefixRun (env : Env) (k : Nat) : List Descriptor × List Str :=
  (mirror_pages.take k).foldl (runStep env) ([], [])

/-- Concatenation of the per-element lists, in order (used to state what the
provider loop accumulates). -/
def catMap (f : α → List β) : List α → List β
  | [] => []
  | x :: xs => f x ++ catMap f xs

/-- JSON string escaping as done by `json.dump` for the characters that can
need it here (quote and backslash). -/
def jsonEscape (s : Str) : Str :=
  s.flatMap (fun c =>
    if c == '"' then ['\\', '"'] else if c == '\\' then ['\\', '\\'] else [c])

/-- A JSON string literal. -/
def jsonStr (s : Str) : Str := '"' :: (jsonEscape s ++ ['"'])

/-- One descriptor as serialized by `json.dump(sites, f, indent=2)` inside the
array (keys in dict insertion order: name, url, country). -/
def descriptorObj (d : Descriptor) : Str :=
  "  \x7b\n    \"name\": ".toList ++ jsonStr d.name ++
  ",\n    \"url\": ".toList ++ jsonStr d.url ++
  ",\n    \"country\": ".toList ++ jsonStr d.country ++ "\n  \x7d".toList

/-- The comma-separated object list inside the array. -/
def jsonItems : List Descriptor → Str
  | [] => []
  | [d] => descriptorObj d
  | d :: rest => descriptorObj d ++ ",\n".toList ++ jsonItems rest

/-- `json.dump(sites, f, indent=2)`: the full text written to `../sites.jsonc`
(the empty list serializes to `[]`). -/
def jsonDump : List Descriptor → Str
  | [] => "[]".toList
  | ds => "[\n".toList ++ jsonItems ds ++ "\n]".toList

/-- The final `print` line reporting the number of entries written. -/
def countLine (n : Nat) : Str :=
  "Updated sites.jsonc with ".toList ++ Nat.toDigits 10 n ++ " alive entries.".toList

/-- The observable outcome of one run of `main()`: the accumulated `sites`
list, the text written (truncating) to `../sites.jsonc`, and the standard
output lines, in order. -/
structure RunResult where
  sites : List Descriptor
  written : Str
  logs : List Str
deriving DecidableEq, Repr

/-- `main()`: process every provider in order, then write the JSON document
and print the summary line.  The run aborts for no provider-level failure;
only the oracles vary between runs. -/
def mainRun (env : Env) : RunResult :=
  let acc := mirror_pages.foldl (runStep env) ([], [])
  ⟨acc.1, jsonDump acc.1, acc.2 ++ [countLine acc.1.length]⟩

/-- Whether a string starts with an HTTP or HTTPS scheme; `requests` raises
(client-side, before any network traffic) on URLs that lack one. -/
def hasScheme (s : Str) : Bool :=
  leadMatch "http://".toList s || leadMatch "https://".toList s

/-- Index-page text for the deduplication scenario: the matching Hetzner URL
appearing twice. -/
def hetznerText : Str :=
  "https://speed.hetzner.de/100MB.bin\nhttps://speed.hetzner.de/100MB.bin".toList

/-- A concrete environment: Hetzner's index page returns `hetznerText`, every
other fetch raises, and only the 100MB Hetzner URL probes alive. -/
def hetznerEnv : Env :=
  ⟨fun u => if u = "https://speed.hetzner.de/".toList then .ok hetznerText
            else .error "connection timed out".toList,
   fun u => if u = "https://speed.hetzner.de/100MB.bin".toList then .ok 200
            else .error "connection refused".toList⟩

/-- A concrete environment in which every index fetch raises. -/
def allDownEnv : Env :=
  ⟨fun _ => .error "timeout".toList, fun _ => .error "timeout".toList⟩

end UpdateSites

namespace UpdateSites

theorem leadMatch_iff : ∀ l s : Str, leadMatch l s = true ↔ ∃ t, l ++ t = s := by
  intro l
  induction l with
  | nil => intro s; simp [leadMatch]
  | cons a as ih =>
      intro s
      cases s with
      | nil => simp [leadMatch]
      | cons b bs =>
          simp only [leadMatch, Bool.and_eq_true, beq_iff_eq, ih bs]
          constructor
          · rintro ⟨rfl, t, rfl⟩; exact ⟨t, rfl⟩
          · rintro ⟨t, h⟩
            injection h with h1 h2
            exact ⟨h1, t, h2⟩

theorem leadMatch_of_append (l t : Str) : leadMatch l (l ++ t) = true :=
  (leadMatch_iff l (l ++ t)).mpr ⟨t, rfl⟩

theorem head_mem {α : Type _} {l : List α} {a : α} (h : l.head? = some a) : a ∈ l := by
  cases l with
  | nil => simp at h
  | cons x xs => simp at h; simp [h]

theorem mem_catMap {α β : Type _} (f : α → List β) (b : β) :
    ∀ l : List α, b ∈ catMap f l ↔ ∃ a, a ∈ l ∧ b ∈ f a := by
  intro l
  induction l with
  | nil => simp [catMap]
  | cons x xs ih =>
      simp only [catMap, List.mem_append, ih, List.mem_cons]
      constructor
      · rintro (h | ⟨a, ha, hb⟩)
        · exact ⟨x, Or.inl rfl, h⟩
        · exact ⟨a, Or.inr ha, hb⟩
      · rintro ⟨a, (rfl | ha), hb⟩
        · exact Or.inl hb
        · exact Or.inr ⟨a, ha, hb⟩

theorem catMap_eq_nil {α β : Type _} (f : α → List β) :
    ∀ l : List α, (∀ a ∈ l, f a = []) → catMap f l = [] := by
  intro l
  induction l with
  | nil => intro _; rfl
  | cons x xs ih =>
      intro h
      simp only [catMap, h x (by simp), List.nil_append]
      exact ih (fun a ha => h a (by simp [ha]))

theorem candidates_consumed :
    ∀ (r : Regex) (s c rest : Str) (g : Option Str),
      (c, rest, g) ∈ r.candidates s → c ++ rest = s := by
  intro r
  induction r with
  | lit l =>
      intro s c rest g h
      simp only [Regex.candidates] at h
      split at h
      · next hl =>
          obtain ⟨t, ht⟩ := (leadMatch_iff l s).mp hl
          simp only [List.mem_singleton, Prod.mk.injEq] at h
          obtain ⟨rfl, rfl, -⟩ := h
          rw [← ht, List.drop_left]
      · simp at h
  | clsPlus p =>
      intro s c rest g h
      simp only [Regex.candidates, List.mem_map, List.mem_range] at h
      obtain ⟨i, -, h⟩ := h
      obtain ⟨rfl, rfl, -⟩ := Prod.mk.injEq .. ▸ h
      exact List.take_append_drop _ _
  | alts ls =>
      intro s c rest g h
      simp only [Regex.candidates, List.mem_filterMap] at h
      obtain ⟨l, -, h⟩ := h
      split at h
      · next hl =>
          obtain ⟨t, ht⟩ := (leadMatch_iff l s).mp hl
          simp only [Option.some.injEq, Prod.mk.injEq] at h
          obtain ⟨rfl, rfl, -⟩ := h
          rw [← ht, List.drop_left]
      · simp at h
  | seq a b iha ihb =>
      intro s c rest g h
      simp only [Regex.candidates, List.mem_flatMap, List.mem_map] at h
      obtain ⟨x, hx, y, hy, h⟩ := h
      obtain ⟨rfl, rfl, -⟩ := Prod.mk.injEq .. ▸ h
      have h1 := iha s x.1 x.2.1 x.2.2 hx
      have h2 := ihb x.2.1 y.1 y.2.1 y.2.2 hy
      rw [List.append_assoc, h2, h1]
  | grp r ih =>
      intro s c rest g h
      simp only [Regex.candidates, List.mem_map] at h
      obtain ⟨x, hx, h⟩ := h
      obtain ⟨rfl, rfl, -⟩ := Prod.mk.injEq .. ▸ h
      exact ih s _ _ _ hx

theorem mem_candidates_lit {l s c rest : Str} {g : Option Str} :
    (c, rest, g) ∈ (Regex.lit l).candidates s ↔
      leadMatch l s = true ∧ c = l ∧ rest = s.drop l.length ∧ g = none := by
  constructor
  · intro h
    simp only [Regex.candidates] at h
    split at h
    · next hl =>
        simp only [List.mem_singleton, Prod.mk.injEq] at h
        obtain ⟨rfl, rfl, rfl⟩ := h
        exact ⟨hl, rfl, rfl, rfl⟩
    · simp at h
  · rintro ⟨hl, rfl, rfl, rfl⟩
    simp [Regex.candidates, hl]

theorem mem_candidates_alts {ls : List Str} {s c rest : Str} {g : Option Str} :
    (c, rest, g) ∈ (Regex.alts ls).candidates s ↔
      ∃ l, l ∈ ls ∧ leadMatch l s = true ∧ c = l ∧ rest = s.drop l.length ∧ g = none := by
  simp only [Regex.candidates, List.mem_filterMap]
  constructor
  · rintro ⟨l, hl, h⟩
    split at h
    · next hm =>
        simp only [Option.some.injEq, Prod.mk.injEq] at h
        obtain ⟨rfl, rfl, rfl⟩ := h
        exact ⟨l, hl, hm, rfl, rfl, rfl⟩
    · simp at h
  · rintro ⟨l, hl, hm, rfl, rfl, rfl⟩
    exact ⟨c, hl, by simp [hm]⟩

theorem mem_candidates_cls {p : Char → Bool} {s c rest : Str} {g : Option Str} :
    (c, rest, g) ∈ (Regex.clsPlus p).candidates s ↔
      ∃ k, 1 ≤ k ∧ k ≤ (s.takeWhile p).length ∧
        c = s.take k ∧ rest = s.drop k ∧ g = none := by
  simp only [Regex.candidates, List.mem_map, List.mem_range]
  constructor
  · rintro ⟨i, hi, h⟩
    obtain ⟨rfl, rfl, rfl⟩ := Prod.mk.injEq .. ▸ h
    exact ⟨(s.takeWhile p).length - i, by omega, by omega, rfl, rfl, rfl⟩
  · rintro ⟨k, hk1, hk2, rfl, rfl, rfl⟩
    exact ⟨(s.takeWhile p).length - k, by omega, by rw [Nat.sub_sub_self hk2]⟩

theorem mem_candidates_seq {a b : Regex} {s c rest : Str} {g : Option Str} :
    (c, rest, g) ∈ (Regex.seq a b).candidates s ↔
      ∃ c1 r1 g1 c2 g2, (c1, r1, g1) ∈ a.candidates s ∧ (c2, rest, g2) ∈ b.candidates r1 ∧
        c = c1 ++ c2 ∧ g = pickCap g1 g2 := by
  simp only [Regex.candidates, List.mem_flatMap, List.mem_map]
  constructor
  · rintro ⟨x, hx, y, hy, h⟩
    obtain ⟨rfl, rfl, rfl⟩ := Prod.mk.injEq .. ▸ h
    exact ⟨x.1, x.2.1, x.2.2, y.1, y.2.2, hx, hy, rfl, rfl⟩
  · rintro ⟨c1, r1, g1, c2, g2, h1, h2, rfl, rfl⟩
    exact ⟨(c1, r1, g1), h1, (c2, rest, g2), h2, rfl⟩

theorem mem_candidates_grp {r : Regex} {s c rest : Str} {g : Option Str} :
    (c, rest, g) ∈ (Regex.grp r).candidates s ↔
      ∃ g0, (c, rest, g0) ∈ r.candidates s ∧ g = some c := by
  simp only [Regex.candidates, List.mem_map]
  constructor
  · rintro ⟨x, hx, h⟩
    obtain ⟨rfl, rfl, rfl⟩ := Prod.mk.injEq .. ▸ h
    exact ⟨x.2.2, hx, rfl⟩
  · rintro ⟨g0, h0, rfl⟩
    exact ⟨(c, rest, g0), h0, rfl⟩

theorem takeWhile_append_all {p : Char → Bool} :
    ∀ c b : Str, (∀ x ∈ c, p x = true) → (c ++ b).takeWhile p = c ++ b.takeWhile p := by
  intro c
  induction c with
  | nil => intro b _; rfl
  | cons a as ih =>
      intro b h
      have ha := h a (by simp)
      have ih' := ih b (fun x hx => h x (by simp [hx]))
      simp [List.takeWhile_cons, ha, ih']

theorem mem_take_takeWhile {p : Char → Bool} :
    ∀ (s : Str) (k : Nat), k ≤ (s.takeWhile p).length → ∀ x ∈ s.take k, p x = true := by
  intro s
  induction s with
  | nil => intro k _ x hx; simp at hx
  | cons a as ih =>
      intro k hk x hx
      by_cases hp : p a = true
      · simp only [List.takeWhile_cons, hp, if_true, List.length_cons] at hk
        cases k with
        | zero => simp at hx
        | succ k' =>
            simp only [List.take_succ_cons, List.mem_cons] at hx
            rcases hx with rfl | hx
            · exact hp
            · exact ih k' (by omega) x hx
      · simp only [List.takeWhile_cons, Bool.not_eq_true] at hp
        simp [hp] at hk
        subst hk
        simp at hx

theorem length_takeWhile_le' {p : Char → Bool} :
    ∀ s : Str, (s.takeWhile p).length ≤ s.length := by
  intro s
  induction s with
  | nil => simp
  | cons a as ih =>
      simp only [List.takeWhile_cons]
      split
      · simpa using ih
      · simp

theorem candidates_extend :
    ∀ (r : Regex) (s c rest : Str) (g : Option Str) (b : Str),
      (c, rest, g) ∈ r.candidates s → ∃ g', (c, b, g') ∈ r.candidates (c ++ b) := by
  intro r
  induction r with
  | lit l =>
      intro s c rest g b h
      obtain ⟨-, rfl, -, -⟩ := mem_candidates_lit.mp h
      exact ⟨none, mem_candidates_lit.mpr
        ⟨leadMatch_of_append c b, rfl, (List.drop_left c b).symm, rfl⟩⟩
  | clsPlus p =>
      intro s c rest g b h
      obtain ⟨k, hk1, hk2, rfl, -, -⟩ := mem_candidates_cls.mp h
      have hall : ∀ x ∈ s.take k, p x = true := mem_take_takeWhile s k hk2
      have hlen : (s.take k).length = k := by
        rw [List.length_take]
        have := length_takeWhile_le' (p := p) s
        omega
      refine ⟨none, mem_candidates_cls.mpr ⟨(s.take k).length, by omega, ?_, ?_, ?_, rfl⟩⟩
      · rw [takeWhile_append_all _ _ hall, List.length_append]
        omega
      · rw [List.take_left]
      · rw [List.drop_left]
  | alts ls =>
      intro s c rest g b h
      obtain ⟨l, hl, -, rfl, -, -⟩ := mem_candidates_alts.mp h
      exact ⟨none, mem_candidates_alts.mpr
        ⟨c, hl, leadMatch_of_append c b, rfl, (List.drop_left c b).symm, rfl⟩⟩
  | seq a b' iha ihb =>
      intro s c rest g b h
      obtain ⟨c1, r1, g1, c2, g2, h1, h2, rfl, -⟩ := mem_candidates_seq.mp h
      obtain ⟨g1', h1'⟩ := iha s c1 r1 g1 (c2 ++ b) h1
      obtain ⟨g2', h2'⟩ := ihb r1 c2 rest g2 b h2
      refine ⟨pickCap g1' g2', mem_candidates_seq.mpr
        ⟨c1, c2 ++ b, g1', c2, g2', ?_, h2', rfl, rfl⟩⟩
      rw [List.append_assoc]
      exact h1'
  | grp r ih =>
      intro s c rest g b h
      obtain ⟨g0, h0, rfl⟩ := mem_candidates_grp.mp h
      obtain ⟨g0', h0'⟩ := ih s c rest g0 b h0
      exact ⟨some c, mem_candidates_grp.mpr ⟨g0', h0', rfl⟩⟩

theorem accepts_of_candidate {r : Regex} {s c rest : Str} {g : Option Str}
    (h : (c, rest, g) ∈ r.candidates s) : r.accepts c = true := by
  obtain ⟨g', h'⟩ := candidates_extend r s c rest g [] h
  rw [List.append_nil] at h'
  simp only [Regex.accepts, List.any_eq_true]
  exact ⟨(c, [], g'), h', rfl⟩

theorem candidate_of_accepts {r : Regex} {c : Str} (h : r.accepts c = true) (b : Str) :
    ∃ g, (c, b, g) ∈ r.candidates (c ++ b) := by
  simp only [Regex.accepts, List.any_eq_true] at h
  obtain ⟨x, hx, he⟩ := h
  obtain ⟨cx, restx, gx⟩ := x
  simp only [List.isEmpty_iff] at he
  subst he
  have hc : cx ++ ([] : Str) = c := candidates_consumed r c cx [] gx hx
  rw [List.append_nil] at hc
  subst hc
  exact candidates_extend r cx cx [] gx b hx

theorem caps_none_of_noGrp :
    ∀ r : Regex, r.hasGrp = false →
      ∀ (s c rest : Str) (g : Option Str), (c, rest, g) ∈ r.candidates s → g = none := by
  intro r
  induction r with
  | lit l => intro _ s c rest g h; exact (mem_candidates_lit.mp h).2.2.2
  | clsPlus p =>
      intro _ s c rest g h
      obtain ⟨k, -, -, -, -, hg⟩ := mem_candidates_cls.mp h
      exact hg
  | alts ls =>
      intro _ s c rest g h
      obtain ⟨l, -, -, -, -, hg⟩ := mem_candidates_alts.mp h
      exact hg
  | seq a b iha ihb =>
      intro hng s c rest g h
      simp only [Regex.hasGrp, Bool.or_eq_false_iff] at hng
      obtain ⟨c1, r1, g1, c2, g2, h1, h2, -, rfl⟩ := mem_candidates_seq.mp h
      rw [iha hng.1 s c1 r1 g1 h1, ihb hng.2 r1 c2 rest g2 h2]
      rfl
  | grp r ih => intro hng; simp [Regex.hasGrp] at hng

theorem mkPatG_cap {pre : Str} {p : Char → Bool} {mid : Str} {ls : List Str}
    {s c rest : Str} {g : Option Str}
    (h : (c, rest, g) ∈ (mkPatG pre p mid ls).candidates s) :
    ∃ l, l ∈ ls ∧ g = some l := by
  simp only [mkPatG] at h
  obtain ⟨c1, r1, g1, c2, g2, h1, h2, -, rfl⟩ := mem_candidates_seq.mp h
  obtain ⟨-, -, -, hg1⟩ := mem_candidates_lit.mp h1
  obtain ⟨c3, r3, g3, c4, g4, h3, h4, -, rfl⟩ := mem_candidates_seq.mp h2
  obtain ⟨k, -, -, -, -, hg3⟩ := mem_candidates_cls.mp h3
  obtain ⟨c5, r5, g5, c6, g6, h5, h6, -, rfl⟩ := mem_candidates_seq.mp h4
  obtain ⟨-, -, -, hg5⟩ := mem_candidates_lit.mp h5
  obtain ⟨g0, h0, hg6⟩ := mem_candidates_grp.mp h6
  obtain ⟨l, hl, -, rfl, -, -⟩ := mem_candidates_alts.mp h0
  subst hg1 hg3 hg5 hg6
  exact ⟨c6, hl, rfl⟩

theorem matchAt_mem {r : Regex} {s : Str} {x : Str × Str × Option Str}
    (h : r.matchAt s = some x) : x ∈ r.candidates s :=
  head_mem h

theorem mem_findallAux {r : Regex} :
    ∀ (fuel : Nat) (s u : Str), u ∈ r.findallAux fuel s →
      ∃ s' x, r.matchAt s' = some x ∧ u = emitOf x.1 x.2.2 := by
  intro fuel
  induction fuel with
  | zero => intro s u h; simp [Regex.findallAux] at h
  | succ n ih =>
      intro s u h
      cases s with
      | nil =>
          simp only [Regex.findallAux] at h
          split at h
          · next x hx =>
              simp only [List.mem_singleton] at h
              exact ⟨[], x, hx, h⟩
          · simp at h
      | cons ch rest =>
          simp only [Regex.findallAux] at h
          split at h
          · next x hx =>
              simp only [List.mem_cons] at h
              rcases h with rfl | h
              · exact ⟨ch :: rest, x, hx, rfl⟩
              · exact ih _ u h
          · exact ih _ u h

theorem findall_accepts {r : Regex} (hg : r.hasGrp = false) {s u : Str}
    (h : u ∈ r.findall s) : r.accepts u = true := by
  obtain ⟨s', x, hx, rfl⟩ := mem_findallAux _ s u h
  have hmem := matchAt_mem hx
  have hnone : x.2.2 = none := caps_none_of_noGrp r hg s' x.1 x.2.1 x.2.2 hmem
  rw [hnone]
  exact accepts_of_candidate hmem

theorem findall_mkPatG_mem {pre : Str} {p : Char → Bool} {mid : Str} {ls : List Str}
    {s u : Str} (h : u ∈ (mkPatG pre p mid ls).findall s) : u ∈ ls := by
  obtain ⟨s', x, hx, rfl⟩ := mem_findallAux _ s u h
  obtain ⟨l, hl, hg⟩ := mkPatG_cap (matchAt_mem hx)
  rw [hg]
  exact hl

theorem searchAux_none {r : Regex} :
    ∀ s : Str, r.searchAux s = none → ∀ a b : Str, a ++ b = s → r.matchAt b = none := by
  intro s
  induction s with
  | nil =>
      intro h a b hab
      have : b = [] := by
        cases a <;> simp_all
      subst this
      simpa [Regex.searchAux] using h
  | cons ch rest ih =>
      intro h a b hab
      simp only [Regex.searchAux] at h
      split at h
      · exact absurd h (by simp)
      · next hm =>
          cases a with
          | nil => simpa [← hab] using hm
          | cons y ys =>
              injection hab with h1 h2
              exact ih h ys b h2

theorem searchAux_some {r : Regex} :
    ∀ {s : Str} {x : Str × Str × Option Str}, r.searchAux s = some x →
      ∃ a, a ++ (x.1 ++ x.2.1) = s ∧ r.matchAt (x.1 ++ x.2.1) = some x := by
  intro s
  induction s with
  | nil =>
      intro x h
      simp only [Regex.searchAux] at h
      have hc : x.1 ++ x.2.1 = [] :=
        candidates_consumed r [] x.1 x.2.1 x.2.2 (matchAt_mem h)
      exact ⟨[], by simp [hc], by rw [hc]; exact h⟩
  | cons ch rest ih =>
      intro x h
      have hdef : r.searchAux (ch :: rest)
          = (match r.matchAt (ch :: rest) with
             | some m => some m
             | none => r.searchAux rest) := rfl
      rw [hdef] at h
      cases hma : r.matchAt (ch :: rest) with
      | some x' =>
          rw [hma] at h
          have hx : some x' = some x := h
          obtain rfl : x' = x := Option.some.inj hx
          have hc : x'.1 ++ x'.2.1 = ch :: rest :=
            candidates_consumed r _ x'.1 x'.2.1 x'.2.2 (matchAt_mem hma)
          exact ⟨[], by simp [hc], by rw [hc]; exact hma⟩
      | none =>
          rw [hma] at h
          have h' : r.searchAux rest = some x := h
          obtain ⟨a, ha, hmm⟩ := ih h'
          exact ⟨ch :: a, by simp [ha], hmm⟩

theorem searchAux_first {r : Regex} :
    ∀ (a : Str) (s suffix : Str) (x : Str × Str × Option Str),
      a ++ suffix = s → r.matchAt suffix = some x →
      (∀ a' b' : Str, a' ++ b' = s → a'.length < a.length → r.matchAt b' = none) →
      r.searchAux s = some x := by
  intro a
  induction a with
  | nil =>
      intro s suffix x hab hm _
      simp only [List.nil_append] at hab
      subst hab
      cases suffix with
      | nil => simpa [Regex.searchAux] using hm
      | cons ch rest => simp [Regex.searchAux, hm]
  | cons y ys ih =>
      intro s suffix x hab hm hnone
      subst hab
      have h0 : r.matchAt (y :: (ys ++ suffix)) = none := by
        refine hnone [] (y :: (ys ++ suffix)) rfl ?_
        simp
      have hdef : r.searchAux ((y :: ys) ++ suffix)
          = (match r.matchAt (y :: (ys ++ suffix)) with
             | some m => some m
             | none => r.searchAux (ys ++ suffix)) := rfl
      rw [hdef, h0]
      exact ih (ys ++ suffix) suffix x rfl hm
        (fun a' b' hab' hlen =>
          hnone (y :: a') b' (by simp [hab']) (by simpa using Nat.succ_lt_succ hlen))

theorem foldl_runStep (env : Env) :
    ∀ (l : List Mirror) (s0 : List Descriptor) (l0 : List Str),
      l.foldl (runStep env) (s0, l0)
        = (s0 ++ catMap (fun m => (providerBlock env m).1) l,
           l0 ++ catMap (fun m => (providerBlock env m).2) l) := by
  intro l
  induction l with
  | nil => intro s0 l0; simp [catMap]
  | cons m ms ih =>
      intro s0 l0
      simp only [List.foldl_cons, runStep, ih, catMap, List.append_assoc]

theorem mainRun_sites (env : Env) :
    (mainRun env).sites = catMap (fun m => (providerBlock env m).1) mirror_pages := by
  simp [mainRun, foldl_runStep env mirror_pages [] []]

theorem mainRun_logs (env : Env) :
    (mainRun env).logs = catMap (fun m => (providerBlock env m).2) mirror_pages
      ++ [countLine (mainRun env).sites.length] := by
  simp [mainRun, foldl_runStep env mirror_pages [] []]

theorem mainRun_written (env : Env) :
    (mainRun env).written = jsonDump (mainRun env).sites := by
  simp [mainRun]

theorem mem_providerSites {head : Str → Except Str Nat} {text : Str} {m : Mirror}
    {d : Descriptor} :
    d ∈ providerSites head text m ↔
      ∃ u, u ∈ (m.pattern.findall text).dedup ∧ is_alive head u = true ∧
        d = buildDescriptor m u := by
  simp only [providerSites, List.mem_filterMap]
  constructor
  · rintro ⟨u, hu, hd⟩
    by_cases ha : is_alive head u = true
    · rw [if_pos ha] at hd
      injection hd with hd
      exact ⟨u, hu, ha, hd.symm⟩
    · rw [if_neg ha] at hd
      exact absurd hd (by simp)
  · rintro ⟨u, hu, ha, rfl⟩
    exact ⟨u, hu, by rw [if_pos ha]⟩

theorem mem_mainRun_sites {env : Env} {d : Descriptor}
    (h : d ∈ (mainRun env).sites) :
    ∃ m, m ∈ mirror_pages ∧ ∃ text, env.get m.url = .ok text ∧
      d ∈ providerSites env.head text m := by
  rw [mainRun_sites] at h
  obtain ⟨m, hm, hd⟩ := (mem_catMap _ d mirror_pages).mp h
  refine ⟨m, hm, ?_⟩
  unfold providerBlock at hd
  split at hd
  · next text hok => exact ⟨text, hok, hd⟩
  · simp at hd

theorem countP_url_filterMap_nodup (f : Str → Option Descriptor)
    (hf : ∀ a d, f a = some d → d.url = a) (u : Str) :
    ∀ l : List Str, l.Nodup → (l.filterMap f).countP (fun d => d.url == u) ≤ 1 := by
  intro l
  induction l with
  | nil => intro _; simp
  | cons a as ih =>
      intro hnd
      rw [List.nodup_cons] at hnd
      rw [List.filterMap_cons]
      cases hfa : f a with
      | none => exact ih hnd.2
      | some d =>
          rw [List.countP_cons]
          by_cases hdu : (d.url == u) = true
          · have hda : d.url = a := hf a d hfa
            have hzero : (as.filterMap f).countP (fun d' => d'.url == u) = 0 := by
              rw [List.countP_eq_zero]
              rintro d' hd'
              obtain ⟨a', ha', hfa'⟩ := List.mem_filterMap.mp hd'
              have : d'.url = a' := hf a' d' hfa'
              have hau : a = u := by simpa [hda] using hdu
              simp only [this, beq_iff_eq]
              intro heq
              exact hnd.1 (by rw [heq, ← hau] at ha'; exact ha')
            simp [hzero, hdu]
          · simp only [Bool.not_eq_true] at hdu
            simpa [hdu] using ih hnd.2

theorem filterMap_nil_of_none {α β : Type _} (f : α → Option β) :
    ∀ l : List α, (∀ a ∈ l, f a = none) → l.filterMap f = [] := by
  intro l
  induction l with
  | nil => intro _; rfl
  | cons x xs ih =>
      intro h
      rw [List.filterMap_cons, h x (by simp)]
      exact ih (fun a ha => h a (by simp [ha]))

/-- C1: the spec claims the extractor returns the set of full-match URL
strings, but for the OVH France provider (and the four Leaseweb providers)
the capturing group `(dat|zip)` in the pattern makes `re.findall` return the
group text instead of the whole match: on a page containing the matching URL
`http://proof.ovh.net/files/100MB.dat` the extractor yields `"dat"`, not the
URL, even though the full URL does match the pattern. -/
theorem extractor_emits_group_not_url :
    ovhMirror.pattern.findall "http://proof.ovh.net/files/100MB.dat".toList
        = ["dat".toList]
    ∧ ovhMirror.pattern.accepts "http://proof.ovh.net/files/100MB.dat".toList = true
    ∧ "dat".toList ≠ "http://proof.ovh.net/files/100MB.dat".toList :=
  ⟨by decide, by decide, by decide⟩

/-- C2: provided that probing a string without an HTTP scheme never reports
success (as `requests.head` raises client-side on such strings), the
invariant holds per originating provider: every descriptor in the run's
output comes from the provider block that fetched its page text, and every
descriptor a provider's block contributes has a URL that passed the liveness
probe in this run and that fully matches that same provider's pattern. -/
theorem descriptor_invariant (env : Env)
    (hprobe : ∀ u : Str, hasScheme u = false → is_alive env.head u = false) :
    (∀ d ∈ (mainRun env).sites, ∃ m, m ∈ mirror_pages ∧ ∃ text,
        env.get m.url = .ok text ∧ d ∈ providerSites env.head text m)
    ∧ (∀ m, m ∈ mirror_pages → ∀ text : Str,
        ∀ d ∈ providerSites env.head text m,
          is_alive env.head d.url = true
          ∧ m.pattern.accepts d.url = true) := by
  refine ⟨fun d hd => mem_mainRun_sites hd, ?_⟩
  intro m hm text d hd
  obtain ⟨u, hu, ha, rfl⟩ := mem_providerSites.mp hd
  refine ⟨ha, ?_⟩
  show m.pattern.accepts u = true
  have hufind : u ∈ m.pattern.findall text := List.mem_dedup.mp hu
  simp only [mirror_pages, List.mem_cons, List.not_mem_nil, or_false] at hm
  rcases hm with rfl | rfl | rfl | rfl | rfl | rfl | rfl | rfl |
    rfl | rfl | rfl | rfl | rfl | rfl | rfl | rfl
  · exact findall_accepts (by rfl) hufind
  · exact findall_accepts (by rfl) hufind
  · have hls := findall_mkPatG_mem hufind
    simp only [List.mem_cons, List.not_mem_nil, or_false] at hls
    rcases hls with rfl | rfl
    · rw [hprobe _ (by decide)] at ha; exact absurd ha (by simp)
    · rw [hprobe _ (by decide)] at ha; exact absurd ha (by simp)
  · exact findall_accepts (by rfl) hufind
  · have hls := findall_mkPatG_mem hufind
    simp only [List.mem_cons, List.not_mem_nil, or_false] at hls
    rcases hls with rfl | rfl
    · rw [hprobe _ (by decide)] at ha; exact absurd ha (by simp)
    · rw [hprobe _ (by decide)] at ha; exact absurd ha (by simp)
  · have hls := findall_mkPatG_mem hufind
    simp only [List.mem_cons, List.not_mem_nil, or_false] at hls
    rcases hls with rfl | rfl
    · rw [hprobe _ (by decide)] at ha; exact absurd ha (by simp)
    · rw [hprobe _ (by decide)] at ha; exact absurd ha (by simp)
  · have hls := findall_mkPatG_mem hufind
    simp only [List.mem_cons, List.not_mem_nil, or_false] at hls
    rcases hls with rfl | rfl
    · rw [hprobe _ (by decide)] at ha; exact absurd ha (by simp)
    · rw [hprobe _ (by decide)] at ha; exact absurd ha (by simp)
  · have hls := findall_mkPatG_mem hufind
    simp only [List.mem_cons, List.not_mem_nil, or_false] at hls
    rcases hls with rfl | rfl
    · rw [hprobe _ (by decide)] at ha; exact absurd ha (by simp)
    · rw [hprobe _ (by decide)] at ha; exact absurd ha (by simp)
  · exact findall_accepts (by rfl) hufind
  · exact findall_accepts (by rfl) hufind
  · exact findall_accepts (by rfl) hufind
  · exact findall_accepts (by rfl) hufind
  · exact findall_accepts (by rfl) hufind
  · exact findall_accepts (by rfl) hufind
  · exact findall_accepts (by rfl) hufind
  · exact findall_accepts (by rfl) hufind

/-- Witness for C2 at a concrete environment: the hypothesis on schemeless
probes holds for `hetznerEnv`, and the per-origin invariant follows. -/
theorem descriptor_invariant_witness :
    (∀ u : Str, hasScheme u = false → is_alive hetznerEnv.head u = false)
    ∧ ((∀ d ∈ (mainRun hetznerEnv).sites, ∃ m, m ∈ mirror_pages ∧ ∃ text,
          hetznerEnv.get m.url = .ok text
          ∧ d ∈ providerSites hetznerEnv.head text m)
      ∧ (∀ m, m ∈ mirror_pages → ∀ text : Str,
          ∀ d ∈ providerSites hetznerEnv.head text m,
            is_alive hetznerEnv.head d.url = true
            ∧ m.pattern.accepts d.url = true)) := by
  have hp : ∀ u : Str, hasScheme u = false → is_alive hetznerEnv.head u = false := by
    intro u h
    have hne : u ≠ "https://speed.hetzner.de/100MB.bin".toList := by
      intro he; rw [he] at h; exact absurd h (by decide)
    have herr : hetznerEnv.head u
        = Except.error "connection refused".toList := if_neg hne
    unfold is_alive
    rw [herr]
  exact ⟨hp, descriptor_invariant hetznerEnv hp⟩

/-- C3: for a provider whose index fetch succeeded, each deduplicated
candidate string gets a descriptor in the final output exactly when its
liveness probe succeeds; and the accumulated list only ever grows (each
provider step appends, never updates or deletes). -/
theorem descriptor_iff_alive (env : Env) (m : Mirror) (hm : m ∈ mirror_pages)
    (text : Str) (hget : env.get m.url = .ok text) :
    (∀ u ∈ (m.pattern.findall text).dedup,
        ((∃ d, d ∈ (mainRun env).sites ∧ d.url = u) ↔ is_alive env.head u = true))
    ∧ (∀ k, ∃ tail, (prefixRun env (k + 1)).1 = (prefixRun env k).1 ++ tail) := by
  constructor
  · intro u hu
    constructor
    · rintro ⟨d, hd, hdu⟩
      obtain ⟨m', hm', text', hget', hps'⟩ := mem_mainRun_sites hd
      obtain ⟨u', hu', ha', rfl⟩ := mem_providerSites.mp hps'
      have huu : u' = u := hdu
      rw [← huu]
      exact ha'
    · intro ha
      refine ⟨buildDescriptor m u, ?_, rfl⟩
      rw [mainRun_sites]
      refine (mem_catMap _ _ _).mpr ⟨m, hm, ?_⟩
      have hblk : (providerBlock env m).1 = providerSites env.head text m := by
        simp [providerBlock, hget]
      rw [hblk]
      exact mem_providerSites.mpr ⟨u, hu, ha, rfl⟩
  · intro k
    unfold prefixRun
    rw [List.take_succ, List.foldl_append]
    cases hx : mirror_pages[k]? with
    | none => exact ⟨[], by simp [hx]⟩
    | some m' =>
        refine ⟨(providerBlock env m').1, ?_⟩
        simp [hx, runStep]

/-- Witness for C3: in `hetznerEnv` the Hetzner fetch succeeds, the duplicated
100MB URL is a candidate, and the iff holds at it. -/
theorem descriptor_iff_alive_witness :
    hetznerMirror ∈ mirror_pages
    ∧ hetznerEnv.get hetznerMirror.url = .ok hetznerText
    ∧ "https://speed.hetzner.de/100MB.bin".toList
        ∈ (hetznerMirror.pattern.findall hetznerText).dedup
    ∧ ((∃ d, d ∈ (mainRun hetznerEnv).sites
          ∧ d.url = "https://speed.hetzner.de/100MB.bin".toList)
        ↔ is_alive hetznerEnv.head "https://speed.hetzner.de/100MB.bin".toList
            = true) := by
  refine ⟨List.mem_cons_self _ _, rfl, by decide, ?_⟩
  exact (descriptor_iff_alive hetznerEnv hetznerMirror (List.mem_cons_self _ _)
    hetznerText rfl).1 _ (by decide)

/-- C4: a provider's contribution never holds two descriptors for the same
URL (the extracted candidates are collapsed to a set before probing); and in
the concrete Hetzner scenario — its index page holding the same matching URL
twice, the probe succeeding for it, every other fetch failing — the run's
output is exactly the single expected object. -/
theorem dedup_at_most_one_descriptor :
    (∀ (head : Str → Except Str Nat) (text : Str) (m : Mirror) (u : Str),
        (providerSites head text m).countP (fun d => d.url == u) ≤ 1)
    ∧ (mainRun hetznerEnv).sites
        = [⟨"Hetzner Germany 100MB".toList,
            "https://speed.hetzner.de/100MB.bin".toList, "DE".toList⟩] := by
  constructor
  · intro head text m u
    unfold providerSites
    apply countP_url_filterMap_nodup
    · intro a d hd
      by_cases ha : is_alive head a = true
      · rw [if_pos ha] at hd; injection hd with hd; rw [← hd]; rfl
      · rw [if_neg ha] at hd; exact absurd hd (by simp)
    · exact List.nodup_dedup _
  · decide

/-- C5: when a provider's index fetch raises, that provider contributes no
descriptors, the failure line is printed, and every other provider's
descriptors still reach the final output. -/
theorem fetch_failure_isolated (env : Env) (m : Mirror) (hm : m ∈ mirror_pages)
    (e : Str) (hfail : env.get m.url = .error e) :
    (providerBlock env m).1 = []
    ∧ ("Failed to fetch ".toList ++ m.url ++ ": ".toList ++ e) ∈ (mainRun env).logs
    ∧ (∀ m', m' ∈ mirror_pages →
        ∀ d ∈ (providerBlock env m').1, d ∈ (mainRun env).sites) := by
  refine ⟨by simp [providerBlock, hfail], ?_, ?_⟩
  · rw [mainRun_logs]
    refine List.mem_append.mpr (Or.inl ?_)
    refine (mem_catMap _ _ _).mpr ⟨m, hm, ?_⟩
    simp [providerBlock, hfail]
  · intro m' hm' d hd
    rw [mainRun_sites]
    exact (mem_catMap _ _ _).mpr ⟨m', hm', hd⟩

/-- Witness for C5: with every fetch raising `timeout`, the Hetzner failure
line is printed. -/
theorem fetch_failure_isolated_witness :
    allDownEnv.get hetznerMirror.url = .error "timeout".toList
    ∧ ("Failed to fetch ".toList ++ hetznerMirror.url ++ ": ".toList
        ++ "timeout".toList) ∈ (mainRun allDownEnv).logs := by
  refine ⟨rfl, ?_⟩
  exact (fetch_failure_isolated allDownEnv hetznerMirror (List.mem_cons_self _ _)
    "timeout".toList rfl).2.1

/-- C6: `is_alive` is true exactly when the header-only request completes
with status 200; any other status, and any raised exception, yields false. -/
theorem is_alive_iff_status_200 (head : Str → Except Str Nat) (u : Str) :
    is_alive head u = true ↔ head u = .ok 200 := by
  unfold is_alive
  cases h : head u with
  | ok code => simp
  | error e => simp

/-- C7: a descriptor's name is the provider's display name, a space, and
`file_size_from_url` of its URL; `file_size_from_url` returns the literal
`"file"` when no substring of the URL matches digits immediately followed by
one of `MB`, `GB`, `Mb`, `Gb`, and otherwise a substring of the URL matching
that pattern; with the two concrete label-derivation examples. -/
theorem descriptor_name_size_token :
    (∀ (head : Str → Except Str Nat) (text : Str) (m : Mirror) (d : Descriptor),
        d ∈ providerSites head text m →
          d.name = m.name ++ " ".toList ++ file_size_from_url d.url)
    ∧ (∀ url : Str, (∀ t a b : Str, url = a ++ t ++ b → sizeRe.accepts t = false) →
        file_size_from_url url = "file".toList)
    ∧ (∀ url t a b : Str, url = a ++ t ++ b → sizeRe.accepts t = true →
        (∃ a' b' : Str, url = a' ++ file_size_from_url url ++ b')
          ∧ sizeRe.accepts (file_size_from_url url) = true)
    ∧ file_size_from_url "https://example.com/speedtest/100MB.bin".toList
        = "100MB".toList
    ∧ file_size_from_url "https://example.com/speedtest/file.bin".toList
        = "file".toList := by
  refine ⟨?_, ?_, ?_, by decide, by decide⟩
  · intro head text m d hd
    obtain ⟨u, hu, ha, rfl⟩ := mem_providerSites.mp hd
    rfl
  · intro url h
    cases hs : sizeRe.searchAux url with
    | none => simp [file_size_from_url, hs]
    | some x =>
        obtain ⟨a, ha, hma⟩ := searchAux_some hs
        have hacc : sizeRe.accepts x.1 = true := accepts_of_candidate (matchAt_mem hma)
        have hfalse := h x.1 a x.2.1 (by rw [← ha, List.append_assoc])
        simp [hfalse] at hacc
  · intro url t a b hab hacc
    cases hs : sizeRe.searchAux url with
    | none =>
        have h1 : sizeRe.matchAt (t ++ b) = none :=
          searchAux_none url hs a (t ++ b) (by rw [hab, ← List.append_assoc])
        obtain ⟨g, hgmem⟩ := candidate_of_accepts hacc b
        rcases hcand : sizeRe.candidates (t ++ b) with _ | ⟨y, ys⟩
        · rw [hcand] at hgmem; exact absurd hgmem (by simp)
        · rw [Regex.matchAt, hcand] at h1; exact absurd h1 (by simp)
    | some x =>
        have hfs : file_size_from_url url = x.1 := by
          unfold file_size_from_url; rw [hs]
        obtain ⟨a', ha', hma⟩ := searchAux_some hs
        refine ⟨⟨a', x.2.1, ?_⟩, ?_⟩
        · rw [hfs, ← ha', List.append_assoc]
        · rw [hfs]
          exact accepts_of_candidate (matchAt_mem hma)

/-- Witness for C7: the token hypothesis holds for the URL `12MB`, and the
conclusion of the token clause follows there. -/
theorem descriptor_name_size_token_witness :
    ("12MB".toList = ([] : Str) ++ "12MB".toList ++ ([] : Str)
      ∧ sizeRe.accepts "12MB".toList = true)
    ∧ ((∃ a' b' : Str,
          "12MB".toList = a' ++ file_size_from_url "12MB".toList ++ b')
        ∧ sizeRe.accepts (file_size_from_url "12MB".toList) = true) := by
  refine ⟨⟨by decide, by decide⟩, ?_⟩
  exact descriptor_name_size_token.2.2.1 "12MB".toList "12MB".toList [] []
    (by decide) (by decide)

/-- C8: the AWS S3 character class `[0-9A-ZaZ]` accepts exactly digits,
uppercase ASCII letters and the lowercase letter `a`; consequently a page
holding `https://speedtest.s3.amazonaws.com/test.bin` (stem with lowercase
letters other than `a`) yields no extraction match at all. -/
theorem aws_class_and_no_match :
    (∀ c : Char, awsCls c
        = (('0' ≤ c && c ≤ '9') || (('A' ≤ c && c ≤ 'Z') || c == 'a')))
    ∧ awsMirror.pattern.findall
        "https://speedtest.s3.amazonaws.com/test.bin".toList = [] := by
  constructor
  · intro c
    by_cases hz : c = 'Z'
    · subst hz; decide
    · have hz' : (c == 'Z') = false := by simp [hz]
      simp [awsCls, hz']
  · decide

/-- C9: the writer step is unconditional: the written document always
serializes the accumulated list and the summary line always reports its
length; when every fetch fails, or when no candidate string probes alive,
the document is the empty JSON array `[]` and the reported count is 0. -/
theorem writer_unconditional (env : Env) :
    ((mainRun env).written = jsonDump (mainRun env).sites
      ∧ countLine (mainRun env).sites.length ∈ (mainRun env).logs)
    ∧ (((∀ m, m ∈ mirror_pages → ∃ e, env.get m.url = .error e)
          ∨ (∀ u : Str, is_alive env.head u = false)) →
        (mainRun env).sites = [] ∧ (mainRun env).written = "[]".toList
          ∧ countLine 0 ∈ (mainRun env).logs) := by
  constructor
  · exact ⟨mainRun_written env, by rw [mainRun_logs]; simp⟩
  · intro h
    have hsites : (mainRun env).sites = [] := by
      rw [mainRun_sites]
      apply catMap_eq_nil
      intro m hm
      rcases h with h | h
      · obtain ⟨e, he⟩ := h m hm
        simp [providerBlock, he]
      · unfold providerBlock
        cases hg : env.get m.url with
        | ok text =>
            show providerSites env.head text m = []
            unfold providerSites
            apply filterMap_nil_of_none
            intro u hu
            rw [if_neg]
            simp [h u]
        | error e => rfl
    refine ⟨hsites, ?_, ?_⟩
    · rw [mainRun_written, hsites]; rfl
    · rw [mainRun_logs, hsites]; simp

/-- Witness for C9, exercising the no-candidate-alive disjunct: in
`allDownEnv` every probe raises, so nothing is alive, and the output is the
empty array with the count line reporting 0. -/
theorem writer_unconditional_witness :
    ((∀ m, m ∈ mirror_pages → ∃ e, allDownEnv.get m.url = .error e)
        ∨ (∀ u : Str, is_alive allDownEnv.head u = false))
    ∧ ((mainRun allDownEnv).sites = []
        ∧ (mainRun allDownEnv).written = "[]".toList
        ∧ countLine 0 ∈ (mainRun allDownEnv).logs) := by
  have h : (∀ m, m ∈ mirror_pages → ∃ e, allDownEnv.get m.url = .error e)
      ∨ (∀ u : Str, is_alive allDownEnv.head u = false) :=
    Or.inr (fun u => rfl)
  exact ⟨h, (writer_unconditional allDownEnv).2 h⟩

/-- C10: `file_size_from_url` scans the whole URL and uses the leftmost
match: if the size pattern matches at some position and at no earlier
position, the result is that match; in particular with two tokens the first
wins, and a token in the host/directory part is used when the file name has
none. -/
theorem size_token_leftmost :
    (∀ (url a suffix : Str) (x : Str × Str × Option Str),
        url = a ++ suffix → sizeRe.matchAt suffix = some x →
        (∀ a' b' : Str, url = a' ++ b' → a'.length < a.length →
          sizeRe.matchAt b' = none) →
        file_size_from_url url = x.1)
    ∧ file_size_from_url "https://host/10MB/100GB.bin".toList = "10MB".toList
    ∧ file_size_from_url "https://cdn.500GB.example.com/data/file.bin".toList
        = "500GB".toList := by
  refine ⟨?_, by decide, by decide⟩
  intro url a suffix x hab hm hnone
  have hs : sizeRe.searchAux url = some x := by
    subst hab
    exact searchAux_first a (a ++ suffix) suffix x rfl hm
      (fun a' b' h hl => hnone a' b' h.symm hl)
  unfold file_size_from_url
  rw [hs]

/-- Witness for C10: the leftmost-match clause applied at the string `12MB`
with the match anchored at position 0. -/
theorem size_token_leftmost_witness :
    "12MB".toList = ([] : Str) ++ "12MB".toList
    ∧ sizeRe.matchAt "12MB".toList
        = some ("12MB".toList, [], some "12".toList)
    ∧ file_size_from_url "12MB".toList = "12MB".toList := by
  refine ⟨by decide, by decide, ?_⟩
  exact size_token_leftmost.1 "12MB".toList [] "12MB".toList
    ("12MB".toList, [], some "12".toList) rfl (by decide)
    (fun a' b' h hl => absurd hl (by simp))

end UpdateSites
